import Mathlib

/-!
# Verification of the code-status-scanner engine

A shallow embedding, in Lean, of the scanning engine of the
`code-status-macros` repository (file `crates/code-status-scanner/src/main.rs`):
the per-line annotation matcher, the line splitting, the file-selection filter
of `scan_directory`, and the aggregation used by `generate_summary`.

Strings are modelled as `List Char` (`Str`). Machine-level concerns that the
claims do not touch (I/O errors, symbolic links, UTF-8 lossy decoding) are out
of scope; the functions below are otherwise direct translations of the Rust
source, function by function.
-/

namespace CodeStatusScanner

/-- Character sequences: the model of Rust `&str` / `String` contents. -/
abbrev Str := List Char

/-- The constant `MACRO_NAMES` from `main.rs`: the fixed marker vocabulary. -/
def MACRO_NAMES : List Str :=
  [ "untested"
  , "includes_unwrap"
  , "needs"
  , "perf_critical"
  , "security_sensitive"
  , "unsafe_usage"
  , "no_clippy"
  , "complexity"
  , "allocation_heavy"
  , "panic_path"
  , "needs_review"
  , "temporary"
  , "assumptions"
  , "revisit_in"
  , "dependency_sensitive"
  , "platform_specific"
  , "feature_gated"
  , "api_stability"
  , "deadlock_risk"
  , "benchmark_candidate"
  ].map String.toList

/-- The constant `DEFAULT_EXCLUDE_DIRS` from `main.rs`. -/
def DEFAULT_EXCLUDE_DIRS : List Str :=
  [ "target/"
  , "node_modules/"
  , ".git/"
  , ".idea/"
  , ".vscode/"
  , "dist/"
  , "build/"
  ].map String.toList

/-- Rust `str::trim`: remove leading and trailing whitespace. -/
def trimChars (s : Str) : Str :=
  ((s.dropWhile Char.isWhitespace).reverse.dropWhile Char.isWhitespace).reverse

/-- The lazy tail of the pattern `(.*?)\]`: the characters strictly before the
first `]` of the input, or `none` when the input has no `]`.  (`.` cannot match
`]` before the lazy group stops, because the group is shortest-match.) -/
def takeToClose : Str → Option Str
  | [] => none
  | c :: rest => if c = ']' then some [] else (takeToClose rest).map (fun t => c :: t)

/-- `Regex::captures` for the pattern `#\[<name>(.*?)\]` built by
`create_macro_regexes`: leftmost-first search for the literal `#[<name>`,
then the lazy group captures up to the first `]`.  Returns the text of
capture group 1 when the line matches. -/
def regexCaptures (name : Str) : Str → Option Str
  | [] => none
  | c :: rest =>
    match (if List.isPrefixOf ('#' :: '[' :: name) (c :: rest)
           then takeToClose (List.drop (name.length + 2) (c :: rest))
           else none) with
    | some cap => some cap
    | none => regexCaptures name rest

/-- The struct `MacroInstance` from `main.rs`. -/
structure MacroInstance where
  path : Str
  line : Nat
  macro_name : Str
  argument : Option Str
  context : Str
deriving Repr, DecidableEq

/-- The body of the inner `for (macro_name, regex) in macro_regexes` loop in
`scan_file`, for one line: each vocabulary entry whose regex matches the line
contributes one `MacroInstance`.  `all` is the full line vector (needed for the
following-line context), `idx` the 0-based index of `line` in it. -/
def scanLine (names : List Str) (path : Str) (all : List Str) (idx : Nat)
    (line : Str) : List MacroInstance :=
  names.filterMap (fun name =>
    match regexCaptures name line with
    | some cap =>
        some { path := path
             , line := idx + 1
             , macro_name := name
             , argument := some (trimChars cap)
             , context := if idx + 1 < all.length
                          then trimChars (all.getD (idx + 1) [])
                          else [] }
    | none => none)

/-- The outer `for (line_idx, line) in lines.iter().enumerate()` loop of
`scan_file`, started at index `idx`. -/
def scanLinesFrom (names : List Str) (path : Str) (all : List Str) :
    Nat → List Str → List MacroInstance
  | _, [] => []
  | idx, line :: rest =>
      scanLine names path all idx line ++ scanLinesFrom names path all (idx + 1) rest

/-- Splitting a string at every `'\n'` (the split points of `str::lines`). -/
def splitNl : Str → List Str
  | [] => [[]]
  | c :: rest =>
    if c = '\n' then [] :: splitNl rest
    else match splitNl rest with
      | [] => [[c]]
      | l :: ls => (c :: l) :: ls

/-- Remove one trailing `'\r'`, when present. -/
def stripCR (l : Str) : Str :=
  match l.getLast? with
  | some c => if c = '\r' then l.dropLast else l
  | none => l

/-- Strip the `'\r'` of a `"\r\n"` ending from every part that was followed by
a `'\n'` — that is, every part except the final one. -/
def stripCRBeforeNl : List Str → List Str
  | [] => []
  | [last] => [last]
  | l :: rest => stripCR l :: stripCRBeforeNl rest

/-- Rust `str::lines`: split at `'\n'`, treat `"\r\n"` as a line ending too,
and do not produce a final empty line for a trailing line ending. -/
def rustLines (content : Str) : List Str :=
  let parts := stripCRBeforeNl (splitNl content)
  if parts.getLast? = some [] then parts.dropLast else parts

/-- `scan_file` from `main.rs`: split the content into lines once, then run
every vocabulary regex over every line. -/
def scan_file (path : Str) (content : Str) (names : List Str) : List MacroInstance :=
  scanLinesFrom names path (rustLines content) 0 (rustLines content)

/-- Rust `str::contains(needle)`: `strContains hay needle` is true exactly
when `needle` occurs as a contiguous substring of `hay`. -/
def strContains : Str → Str → Bool
  | [], needle => needle.isEmpty
  | c :: rest, needle => List.isPrefixOf needle (c :: rest) || strContains rest needle

/-- The per-entry filter closure inside `scan_directory`: regular file, `.rs`
suffix, default-directory skip (a substring test on the full path), then the
optional include/exclude regexes (modelled as arbitrary boolean predicates on
the path text). -/
def accept_file (is_file : Bool) (path : Str) (skip_default_dirs : Bool)
    (include_pattern exclude_pattern : Option (Str → Bool)) : Bool :=
  if !is_file then false
  else if !(List.isSuffixOf ".rs".toList path) then false
  else if skip_default_dirs &&
          DEFAULT_EXCLUDE_DIRS.any (fun d => strContains path d) then false
  else if (match include_pattern with
           | some p => !(p path)
           | none => false) then false
  else if (match exclude_pattern with
           | some p => p path
           | none => false) then false
  else true

/-- A file-system snapshot: what `WalkDir` walks over. -/
inductive FsEntry where
  | file (name : Str)
  | dir (name : Str) (children : List FsEntry)

mutual

/-- `WalkDir::new(root).follow_links(true).max_depth(maxd)`: pre-order
traversal yielding `(full path, is_file)` for every entry whose depth is at
most `maxd`; the root entry itself has depth 0, entries directly inside a
directory have the directory's depth plus one. -/
def walk (maxd depth : Nat) (pre : Str) : FsEntry → List (Str × Bool)
  | .file name => if depth ≤ maxd then [(pre ++ name, true)] else []
  | .dir name children =>
      if depth ≤ maxd then
        (pre ++ name, false) ::
          walkAll maxd (depth + 1) (pre ++ name ++ ['/']) children
      else []

/-- `walk` over a directory's children, in order. -/
def walkAll (maxd depth : Nat) (pre : Str) : List FsEntry → List (Str × Bool)
  | [] => []
  | e :: es => walk maxd depth pre e ++ walkAll maxd depth pre es

end

/-- `usize::MAX`: what `max_depth.unwrap_or(usize::MAX)` substitutes for an
absent depth bound. -/
def USIZE_MAX : Nat := 2 ^ 64 - 1

/-- The `files` vector computed by `scan_directory`: the walked entries that
pass the filter, in discovery order. -/
def select_files (root : FsEntry) (include_pattern exclude_pattern : Option (Str → Bool))
    (max_depth : Option Nat) (skip_default_dirs : Bool) : List Str :=
  ((walk (max_depth.getD USIZE_MAX) 0 [] root).filter
      (fun e => accept_file e.2 e.1 skip_default_dirs include_pattern exclude_pattern)).map
    (fun e => e.1)

/-- `*map.entry(k).or_insert(0) += 1` on a `HashMap` modelled as an
association list in insertion order: bump the entry for `k`, inserting it at
count 1 when absent. -/
def bumpKey (k : Str) : List (Str × Nat) → List (Str × Nat)
  | [] => [(k, 1)]
  | e :: rest => if e.1 = k then (e.1, e.2 + 1) :: rest else e :: bumpKey k rest

/-- The `count_by_macro` tally of `generate_summary`. -/
def count_by_marker (instances : List MacroInstance) : List (Str × Nat) :=
  instances.foldl (fun m i => bumpKey i.macro_name m) []

/-- The `count_by_file` tally of `generate_summary`. -/
def count_by_file (instances : List MacroInstance) : List (Str × Nat) :=
  instances.foldl (fun m i => bumpKey i.path m) []

/-- The sum of a tally's values (`map.values().sum()`). -/
def sumValues (m : List (Str × Nat)) : Nat := (m.map (fun e => e.2)).sum

/-- One step of a stable descending insertion sort on the count component:
the unique function agreeing with `Vec::sort_by(|a, b| b.1.cmp(a.1))`, which
is a stable sort by descending count. -/
def insertDesc (x : Str × Nat) : List (Str × Nat) → List (Str × Nat)
  | [] => [x]
  | y :: ys => if y.2 ≤ x.2 then x :: y :: ys else y :: insertDesc x ys

/-- `files.sort_by(|a, b| b.1.cmp(a.1))`: stable sort, descending on count.
(A stable sort's output is determined by the comparator, so insertion sort
placing each element before its equals computes the same list.) -/
def sortByCountDesc (l : List (Str × Nat)) : List (Str × Nat) :=
  l.foldr insertDesc []

/-- `files.iter().take(5)` after the sort, applied to the `count_by_file`
entries in the order the `HashMap` iterator yields them (that order is
unspecified by Rust, so it is a parameter here). -/
def top_files_entries (iterEntries : List (Str × Nat)) : List (Str × Nat) :=
  (sortByCountDesc iterEntries).take 5

/-- The file paths of the top-5 entries: the spec's `topFiles` view. -/
def top_files (iterEntries : List (Str × Nat)) : List Str :=
  (top_files_entries iterEntries).map (fun e => e.1)

/-- `instances.len()`: the spec's `totalInstances`. -/
def total_instances (instances : List MacroInstance) : Nat := instances.length

/-- The value a tally records for a key (`map.get(k)`, defaulting to 0). -/
def lookupVal (m : List (Str × Nat)) (k : Str) : Nat :=
  match m.find? (fun e => decide (e.1 = k)) with
  | some e => e.2
  | none => 0

/-! ### Concrete inputs used by the closed theorems -/

def demoPathA : Str := "a.rs".toList

def demoPathB : Str := "b.rs".toList

/-- A concrete instance as the matcher would emit it for `a.rs`. -/
def demoInstanceA : MacroInstance :=
  { path := demoPathA, line := 1, macro_name := "untested".toList
  , argument := some [], context := [] }

/-- A concrete instance as the matcher would emit it for `b.rs`. -/
def demoInstanceB : MacroInstance :=
  { path := demoPathB, line := 1, macro_name := "temporary".toList
  , argument := some [], context := [] }

/-- A two-instance match set discovered in the order `a.rs`, `b.rs`. -/
def demoInstances : List MacroInstance := [demoInstanceA, demoInstanceB]

/-- A root directory `r` holding the single eligible file `a.rs`. -/
def demoTree : FsEntry := .dir "r".toList [.file "a.rs".toList]

/-- The instance the scanner emits for a file whose only line is
`#[untested]`. -/
def untestedInstance : MacroInstance :=
  { path := "f".toList, line := 1, macro_name := "untested".toList
  , argument := some [], context := [] }

end CodeStatusScanner

namespace CodeStatusScanner

/-! ## Lemmas about the annotation matcher -/

/-- Every instance produced for one line carries: the 1-based line number, the
file path, a vocabulary marker name, the trimmed capture of that marker's
regex as its (always present) argument, and the following-line context. -/
theorem scanLine_spec {names : List Str} {path : Str} {all : List Str} {idx : Nat}
    {line : Str} {i : MacroInstance} (h : i ∈ scanLine names path all idx line) :
    i.line = idx + 1 ∧ i.path = path ∧ i.macro_name ∈ names ∧
    (∃ cap, regexCaptures i.macro_name line = some cap ∧
      i.argument = some (trimChars cap)) ∧
    i.context = (if idx + 1 < all.length then trimChars (all.getD (idx + 1) []) else []) := by
  rw [scanLine, List.mem_filterMap] at h
  obtain ⟨name, hn, heq⟩ := h
  cases hc : regexCaptures name line with
  | none => rw [hc] at heq; simp at heq
  | some cap =>
    rw [hc] at heq
    simp only [Option.some.injEq] at heq
    subst heq
    exact ⟨rfl, rfl, hn, ⟨cap, hc, rfl⟩, rfl⟩

/-- Locating an instance of `scanLinesFrom` at its source line. -/
theorem mem_scanLinesFrom {names : List Str} {path : Str} {all : List Str}
    {i : MacroInstance} :
    ∀ (rest : List Str) (idx : Nat), i ∈ scanLinesFrom names path all idx rest →
    ∃ j, j < rest.length ∧ i ∈ scanLine names path all (idx + j) (rest.getD j []) := by
  intro rest
  induction rest with
  | nil => intro idx h; simp [scanLinesFrom] at h
  | cons line rs ih =>
    intro idx h
    rw [scanLinesFrom, List.mem_append] at h
    rcases h with h | h
    · exact ⟨0, by simp, by simpa using h⟩
    · obtain ⟨j, hj, hm⟩ := ih (idx + 1) h
      refine ⟨j + 1, by simpa using Nat.succ_lt_succ hj, ?_⟩
      have harith : idx + (j + 1) = idx + 1 + j := by omega
      rw [harith]
      simpa using hm

/-- Locating an instance of `scan_file` at its source line. -/
theorem mem_scan_file {path content : Str} {names : List Str} {i : MacroInstance}
    (h : i ∈ scan_file path content names) :
    ∃ j, j < (rustLines content).length ∧
      i ∈ scanLine names path (rustLines content) j ((rustLines content).getD j []) := by
  rw [scan_file] at h
  obtain ⟨j, hj, hm⟩ := mem_scanLinesFrom _ 0 h
  exact ⟨j, hj, by simpa using hm⟩

theorem isPrefixOf_append_self (l t : Str) : List.isPrefixOf l (l ++ t) = true := by
  induction l with
  | nil => simp [List.isPrefixOf]
  | cons c cs ih => simp [List.isPrefixOf]

/-- A list containing a `]` always lets the lazy group terminate. -/
theorem takeToClose_isSome (mid post : Str) :
    (takeToClose (mid ++ ']' :: post)).isSome = true := by
  induction mid with
  | nil => simp [takeToClose]
  | cons c cs ih =>
    rw [List.cons_append, takeToClose]
    by_cases hc : c = ']'
    · simp [hc]
    · simpa [hc] using ih

theorem drop_marker_open (name X : Str) :
    List.drop (name.length + 2) (('#' :: '[' :: name) ++ X) = X := by
  have hlen : name.length + 2 = ('#' :: '[' :: name).length := by simp
  rw [hlen, List.drop_left]

/-- The pattern `#\[<name>(.*?)\]` matches any line that contains the literal
`#[<name>` with some `]` anywhere after it, wherever in the line it occurs. -/
theorem regexCaptures_isSome (name : Str) :
    ∀ pre mid post : Str,
    (regexCaptures name (pre ++ ('#' :: '[' :: name) ++ mid ++ ']' :: post)).isSome = true := by
  intro pre
  induction pre with
  | nil =>
    intro mid post
    have heq : ([] : Str) ++ ('#' :: '[' :: name) ++ mid ++ ']' :: post
        = '#' :: ('[' :: (name ++ (mid ++ ']' :: post))) := by simp
    rw [heq, regexCaptures]
    have h1 : List.isPrefixOf ('#' :: '[' :: name)
        ('#' :: ('[' :: (name ++ (mid ++ ']' :: post)))) = true := by
      simp [List.isPrefixOf, isPrefixOf_append_self]
    have h2 : List.drop (name.length + 2) ('#' :: ('[' :: (name ++ (mid ++ ']' :: post))))
        = mid ++ ']' :: post := by
      have := drop_marker_open name (mid ++ ']' :: post)
      simp only [List.cons_append, List.append_assoc] at this ⊢
      exact this
    cases ht : takeToClose (mid ++ ']' :: post) with
    | none =>
      have hcontra := takeToClose_isSome mid post
      rw [ht] at hcontra
      simp at hcontra
    | some cap => simp [h1, h2, ht]
  | cons c cs ih =>
    intro mid post
    have heq : (c :: cs) ++ ('#' :: '[' :: name) ++ mid ++ ']' :: post
        = c :: (cs ++ ('#' :: '[' :: name) ++ mid ++ ']' :: post) := by simp
    rw [heq, regexCaptures]
    cases hb : (if List.isPrefixOf ('#' :: '[' :: name)
          (c :: (cs ++ ('#' :: '[' :: name) ++ mid ++ ']' :: post))
        then takeToClose (List.drop (name.length + 2)
          (c :: (cs ++ ('#' :: '[' :: name) ++ mid ++ ']' :: post)))
        else none) with
    | some cap => simp
    | none => simpa using ih mid post

/-- A successful capture for a vocabulary entry puts the corresponding
instance into the line's scan result. -/
theorem mem_scanLine_of_captures {names : List Str} {name line : Str} (path : Str)
    (all : List Str) (idx : Nat) (hn : name ∈ names) {cap : Str}
    (hc : regexCaptures name line = some cap) :
    ({ path := path, line := idx + 1, macro_name := name,
       argument := some (trimChars cap),
       context := if idx + 1 < all.length then trimChars (all.getD (idx + 1) []) else [] }
      : MacroInstance) ∈ scanLine names path all idx line := by
  rw [scanLine, List.mem_filterMap]
  exact ⟨name, hn, by rw [hc]⟩

/-! ## Lemmas about the aggregator -/

theorem sumValues_bumpKey (k : Str) (m : List (Str × Nat)) :
    sumValues (bumpKey k m) = sumValues m + 1 := by
  induction m with
  | nil => simp [bumpKey, sumValues]
  | cons e rest ih =>
    rw [bumpKey]
    by_cases he : e.1 = k
    · rw [if_pos he]; simp [sumValues]; omega
    · rw [if_neg he]; simp [sumValues] at ih ⊢; omega

/-- Each processed instance adds exactly one to a tally's value sum. -/
theorem sumValues_tally (f : MacroInstance → Str) :
    ∀ (l : List MacroInstance) (m : List (Str × Nat)),
    sumValues (l.foldl (fun acc i => bumpKey (f i) acc) m) = sumValues m + l.length := by
  intro l
  induction l with
  | nil => intro m; simp
  | cons i rest ih =>
    intro m
    rw [List.foldl_cons, ih (bumpKey (f i) m), sumValues_bumpKey]
    simp [List.length_cons]
    omega

theorem lookupVal_cons_ne {a : Str × Nat} {rest : List (Str × Nat)} {k : Str}
    (h : ¬(a.1 = k)) : lookupVal (a :: rest) k = lookupVal rest k := by
  rw [lookupVal, lookupVal, List.find?_cons_of_neg _ (by simpa using h)]

theorem lookupVal_bumpKey (k k' : Str) (m : List (Str × Nat)) :
    lookupVal (bumpKey k m) k' = lookupVal m k' + (if k' = k then 1 else 0) := by
  induction m with
  | nil =>
    rw [bumpKey]
    by_cases h : k' = k
    · simp [lookupVal, h]
    · have hne : ¬(k = k') := fun hc => h hc.symm
      simp [lookupVal, h, hne]
  | cons e rest ih =>
    rw [bumpKey]
    by_cases he : e.1 = k
    · rw [if_pos he]
      by_cases h' : k' = e.1
      · have hk : k' = k := h'.trans he
        simp [lookupVal, h'.symm, hk]
      · have hne : ¬(e.1 = k') := fun hc => h' hc.symm
        have hkk : ¬(k' = k) := fun hc => h' (hc.trans he.symm)
        simp [lookupVal, hne, hkk]
    · rw [if_neg he]
      by_cases h' : k' = e.1
      · have hkk : ¬(k' = k) := fun hc => he (h'.symm.trans hc)
        simp [lookupVal, h'.symm, hkk]
      · have hne : ¬(e.1 = k') := fun hc => h' hc.symm
        rw [lookupVal_cons_ne hne, lookupVal_cons_ne hne]
        exact ih

/-- The tally records the exact occurrence count of every key. -/
theorem lookupVal_tally (f : MacroInstance → Str) :
    ∀ (l : List MacroInstance) (m : List (Str × Nat)) (k : Str),
    lookupVal (l.foldl (fun acc i => bumpKey (f i) acc) m) k
      = lookupVal m k + (l.map f).count k := by
  intro l
  induction l with
  | nil => intro m k; simp
  | cons i rest ih =>
    intro m k
    rw [List.foldl_cons, ih (bumpKey (f i) m) k, lookupVal_bumpKey]
    rw [List.map_cons, List.count_cons]
    by_cases h : k = f i
    · simp only [h, if_true, beq_self_eq_true, if_pos]
      omega
    · have hb : (f i == k) = false := by
        simpa using fun hc => h hc.symm
      simp [h, hb]

theorem mem_keys_bumpKey {x k : Str} {m : List (Str × Nat)} :
    x ∈ (bumpKey k m).map (fun e => e.1) ↔ x ∈ m.map (fun e => e.1) ∨ x = k := by
  induction m with
  | nil => simp [bumpKey]
  | cons e rest ih =>
    rw [bumpKey]
    by_cases he : e.1 = k
    · rw [if_pos he]
      simp [he]
      tauto
    · rw [if_neg he]
      simp [ih]
      tauto

theorem bumpKey_keys_nodup {m : List (Str × Nat)}
    (h : (m.map (fun e => e.1)).Nodup) (k : Str) :
    ((bumpKey k m).map (fun e => e.1)).Nodup := by
  induction m with
  | nil => simp [bumpKey]
  | cons e rest ih =>
    rw [List.map_cons, List.nodup_cons] at h
    rw [bumpKey]
    by_cases he : e.1 = k
    · rw [if_pos he]
      rw [List.map_cons, List.nodup_cons]
      exact h
    · rw [if_neg he]
      rw [List.map_cons, List.nodup_cons]
      refine ⟨?_, ih h.2⟩
      intro hc
      rcases mem_keys_bumpKey.mp hc with hc | hc
      · exact h.1 hc
      · exact he hc

/-- Keys of a tally built by `bumpKey` folding are distinct. -/
theorem tally_keys_nodup (f : MacroInstance → Str) :
    ∀ (l : List MacroInstance) (m : List (Str × Nat)),
    (m.map (fun e => e.1)).Nodup →
    ((l.foldl (fun acc i => bumpKey (f i) acc) m).map (fun e => e.1)).Nodup := by
  intro l
  induction l with
  | nil => intro m hm; simpa using hm
  | cons i rest ih =>
    intro m hm
    rw [List.foldl_cons]
    exact ih _ (bumpKey_keys_nodup hm _)

theorem mem_eq_lookupVal : ∀ {m : List (Str × Nat)},
    (m.map (fun e => e.1)).Nodup → ∀ {e : Str × Nat}, e ∈ m → lookupVal m e.1 = e.2 := by
  intro m
  induction m with
  | nil => intro _ e he; cases he
  | cons a rest ih =>
    intro hnd e he
    rw [List.map_cons, List.nodup_cons] at hnd
    rcases List.mem_cons.mp he with rfl | he
    · simp [lookupVal]
    · have hne : ¬(a.1 = e.1) := by
        intro hc
        exact hnd.1 (hc ▸ List.mem_map_of_mem (fun x => x.1) he)
      rw [lookupVal_cons_ne hne]
      exact ih hnd.2 he

/-- Every entry of `count_by_file` records the exact number of instances whose
path is its key. -/
theorem count_by_file_correct {instances : List MacroInstance} {e : Str × Nat}
    (he : e ∈ count_by_file instances) :
    e.2 = (instances.map (fun i => i.path)).count e.1 := by
  have hnd : ((count_by_file instances).map (fun x => x.1)).Nodup :=
    tally_keys_nodup (fun i => i.path) instances [] (by simp)
  have h1 : lookupVal (count_by_file instances) e.1 = e.2 := mem_eq_lookupVal hnd he
  have h2 := lookupVal_tally (fun i => i.path) instances [] e.1
  rw [count_by_file] at h1
  rw [h1] at h2
  simpa [lookupVal] using h2

/-! ## Lemmas about the stable descending sort -/

theorem mem_insertDesc {x y : Str × Nat} {l : List (Str × Nat)} :
    y ∈ insertDesc x l ↔ y = x ∨ y ∈ l := by
  induction l with
  | nil => simp [insertDesc]
  | cons z zs ih =>
    rw [insertDesc]
    by_cases h : z.2 ≤ x.2
    · rw [if_pos h]; simp
    · rw [if_neg h]; simp [ih]; tauto

theorem insertDesc_pairwise {x : Str × Nat} {l : List (Str × Nat)}
    (hl : l.Pairwise (fun a b => b.2 ≤ a.2)) :
    (insertDesc x l).Pairwise (fun a b => b.2 ≤ a.2) := by
  induction l with
  | nil => simp [insertDesc]
  | cons z zs ih =>
    rw [List.pairwise_cons] at hl
    rw [insertDesc]
    by_cases h : z.2 ≤ x.2
    · rw [if_pos h]
      refine List.Pairwise.cons ?_ (List.Pairwise.cons hl.1 hl.2)
      intro b hb
      rcases List.mem_cons.mp hb with rfl | hb
      · exact h
      · exact le_trans (hl.1 b hb) h
    · rw [if_neg h]
      refine List.Pairwise.cons ?_ (ih hl.2)
      intro b hb
      rcases mem_insertDesc.mp hb with rfl | hb
      · omega
      · exact hl.1 b hb

theorem insertDesc_perm (x : Str × Nat) (l : List (Str × Nat)) :
    (insertDesc x l).Perm (x :: l) := by
  induction l with
  | nil => exact List.Perm.refl _
  | cons z zs ih =>
    rw [insertDesc]
    by_cases h : z.2 ≤ x.2
    · rw [if_pos h]
    · rw [if_neg h]
      exact (ih.cons z).trans (List.Perm.swap x z zs)

/-- The sort only reorders the tally entries. -/
theorem sortByCountDesc_perm (l : List (Str × Nat)) : (sortByCountDesc l).Perm l := by
  induction l with
  | nil => exact List.Perm.refl _
  | cons x xs ih =>
    rw [sortByCountDesc, List.foldr_cons]
    exact (insertDesc_perm x _).trans (ih.cons x)

/-- The sort's output is descending on the count component. -/
theorem sortByCountDesc_pairwise (l : List (Str × Nat)) :
    (sortByCountDesc l).Pairwise (fun a b => b.2 ≤ a.2) := by
  induction l with
  | nil => simp [sortByCountDesc]
  | cons x xs ih =>
    rw [sortByCountDesc, List.foldr_cons]
    exact insertDesc_pairwise ih

/-! ## Lemmas about the file selector -/

theorem walk_depth_gt (maxd depth : Nat) (pre : Str) (e : FsEntry)
    (h : maxd < depth) : walk maxd depth pre e = [] := by
  cases e with
  | file name => simp [walk, Nat.not_le.mpr h]
  | dir name children => simp [walk, Nat.not_le.mpr h]

theorem walkAll_depth_gt (maxd depth : Nat) (pre : Str) (h : maxd < depth) :
    ∀ cs : List FsEntry, walkAll maxd depth pre cs = [] := by
  intro cs
  induction cs with
  | nil => rfl
  | cons e es ih => simp [walkAll, walk_depth_gt _ _ _ _ h, ih]

theorem accept_file_not_file (path : Str) (skip : Bool)
    (include_pattern exclude_pattern : Option (Str → Bool)) :
    accept_file false path skip include_pattern exclude_pattern = false := rfl

/-! ## Per-vocabulary-entry structure of a line scan -/

theorem scanLine_cons_none {name line : Str} {names : List Str} {path : Str}
    {all : List Str} {idx : Nat} (hc : regexCaptures name line = none) :
    scanLine (name :: names) path all idx line = scanLine names path all idx line := by
  simp only [scanLine, List.filterMap_cons, hc]

theorem scanLine_cons_some {name line cap : Str} {names : List Str} {path : Str}
    {all : List Str} {idx : Nat} (hc : regexCaptures name line = some cap) :
    scanLine (name :: names) path all idx line
      = ({ path := path, line := idx + 1, macro_name := name
         , argument := some (trimChars cap)
         , context := if idx + 1 < all.length
                      then trimChars (all.getD (idx + 1) []) else [] } : MacroInstance)
        :: scanLine names path all idx line := by
  simp only [scanLine, List.filterMap_cons, hc]

/-! ## The claims -/

/-- C1: the spec requires the pattern built for a marker name not to match an
annotation of a longer marker name sharing it as a prefix — scanning a file
containing the line `#[needs_review]` must produce no instance named `needs`.
The code's unanchored pattern `#\[needs(.*?)\]` does match that line, so the
scanner emits a spurious `needs` instance (argument `_review`) alongside the
genuine `needs_review` one: this theorem evaluates the scanner at that
failing input. -/
theorem C1_prefix_collision_behavior :
    (scan_file "f".toList "#[needs_review]".toList MACRO_NAMES).map
        (fun i => (i.macro_name, i.argument))
      = [("needs".toList, some "_review".toList),
         ("needs_review".toList, some "".toList)] := by decide

/-- C2 (counterexample): scanning the line `#[needs("refactor")]` records the
argument `("refactor")` — parentheses and quotes kept — not `refactor` as the
claim states. -/
theorem C2_counterexample :
    ((scan_file "f".toList "#[needs(\"refactor\")]".toList MACRO_NAMES).map
        (fun i => i.argument) = [some "(\"refactor\")".toList])
    ∧ some "(\"refactor\")".toList ≠ some "refactor".toList := by decide

/-- C2 (amended): scanning a file whose line is exactly `#[needs("refactor")]`
produces exactly one MarkerInstance, with markerName `needs` and argument the
entire text standing between the marker name and the closing bracket —
`("refactor")`, trimmed of surrounding whitespace only, with the enclosing
parentheses and quotes retained. -/
theorem C2_single_instance_with_delimited_argument :
    (scan_file "f".toList "#[needs(\"refactor\")]".toList MACRO_NAMES).map
        (fun i => (i.macro_name, i.argument))
      = [("needs".toList, some "(\"refactor\")".toList)] := by decide

/-- C3 (counterexample): a line containing `#[untested]` twice yields exactly
one instance in total, not one per non-overlapping match. -/
theorem C3_counterexample :
    (scan_file "f".toList "#[untested] #[untested]".toList MACRO_NAMES).length
      = 1 := by decide

/-- C3 (amended): `Regex::captures` inspects only the first match of a pattern
in a line, so each line yields at most one instance per marker name, however
often that marker's annotation occurs on the line. -/
theorem C3_at_most_one_per_marker (names : List Str) (hnd : names.Nodup)
    (path : Str) (all : List Str) (idx : Nat) (line n : Str) :
    ((scanLine names path all idx line).filter
        (fun i => i.macro_name = n)).length ≤ 1 := by
  induction names with
  | nil => simp [scanLine]
  | cons name rest ih =>
    rw [List.nodup_cons] at hnd
    cases hc : regexCaptures name line with
    | none =>
      rw [scanLine_cons_none hc]
      exact ih hnd.2
    | some cap =>
      rw [scanLine_cons_some hc, List.filter_cons]
      by_cases hname : name = n
      · have hz : (scanLine rest path all idx line).filter
            (fun i => decide (i.macro_name = n)) = [] := by
          rw [List.filter_eq_nil_iff]
          intro i hi
          have hmem := (scanLine_spec hi).2.2.1
          simp only [decide_eq_true_eq]
          intro hcontra
          rw [hcontra, ← hname] at hmem
          exact hnd.1 hmem
        simp [hname, hz]
      · simp only [hname, decide_eq_true_eq, if_neg]
        · exact ih hnd.2
  -- the record head has macro_name = name ≠ n, so it is filtered out

/-- C3 (witness): the amended bound holds on the double-`#[untested]` line
with the actual vocabulary. -/
theorem C3_witness :
    MACRO_NAMES.Nodup ∧
    ((scanLine MACRO_NAMES "f".toList ["#[untested] #[untested]".toList] 0
        "#[untested] #[untested]".toList).filter
        (fun i => i.macro_name = "untested".toList)).length ≤ 1 :=
  ⟨by decide,
   C3_at_most_one_per_marker MACRO_NAMES (by decide) "f".toList
     ["#[untested] #[untested]".toList] 0 "#[untested] #[untested]".toList
     "untested".toList⟩

/-- C4 (counterexample): for the line `#[untested]` the captured payload is
empty after trimming, yet the emitted instance carries `argument = some ""`,
not an absent argument. -/
theorem C4_counterexample :
    (scan_file "f".toList "#[untested]".toList MACRO_NAMES).map
        (fun i => i.argument) = [some []]
    ∧ (some ([] : Str)) ≠ none := by decide

/-- C4 (amended): every instance the scanner emits has a present argument —
the whitespace-trimmed capture, which is `some ""` when empty after trimming —
never `none`.  (The display layer, not the matcher, renders an empty argument
as absent.) -/
theorem C4_argument_always_present (path content : Str) (names : List Str)
    (i : MacroInstance) (h : i ∈ scan_file path content names) :
    i.argument ≠ none := by
  obtain ⟨j, hj, hm⟩ := mem_scan_file h
  obtain ⟨cap, _, harg⟩ := (scanLine_spec hm).2.2.2.1
  rw [harg]
  simp

/-- C4 (witness): the instance emitted for `#[untested]` has a present (empty)
argument. -/
theorem C4_witness : untestedInstance.argument ≠ none :=
  C4_argument_always_present "f".toList "#[untested]".toList MACRO_NAMES
    untestedInstance (by decide)

/-- C5 (counterexample): the eligible file `r/a.rs` directly inside the root
directory is selected with maxDepth 1 but absent with maxDepth 0 — with
maxDepth 0 nothing is selected at all, refuting the claim that exactly the
files directly in the root are selected. -/
theorem C5_counterexample :
    select_files demoTree none none (some 1) true = ["r/a.rs".toList]
    ∧ select_files demoTree none none (some 0) true = [] := by
  exact ⟨by decide, by decide⟩

/-- C5 (amended): `WalkDir::max_depth(0)` yields only the root entry itself
(the root has depth 0, files directly inside it depth 1), so with maxDepth 0
and a directory root the selection is empty; files directly in the root are
selected only from maxDepth 1 upward. -/
theorem C5_maxdepth_zero_selects_nothing (name : Str) (cs : List FsEntry)
    (include_pattern exclude_pattern : Option (Str → Bool)) (skip : Bool) :
    select_files (.dir name cs) include_pattern exclude_pattern (some 0) skip = [] := by
  rw [select_files]
  simp only [Option.getD]
  rw [walk]
  rw [if_pos (Nat.le_refl 0), walkAll_depth_gt 0 1 _ Nat.zero_lt_one cs]
  simp [accept_file_not_file]

/-- C6 (counterexample): with two files discovered in the order `a.rs`, `b.rs`
and one instance each, the countsByFile iteration order `[(b,1), (a,1)]` — a
permutation of the tally, hence a possible `HashMap` iteration order — makes
topFiles `[b, a]`, while the claimed discovery-order tie-break demands
`[a, b]`. -/
theorem C6_counterexample :
    List.Perm [(demoPathB, 1), (demoPathA, 1)] (count_by_file demoInstances)
    ∧ top_files [(demoPathB, 1), (demoPathA, 1)] = [demoPathB, demoPathA]
    ∧ [demoPathB, demoPathA] ≠ [demoPathA, demoPathB] := by
  refine ⟨by decide, by decide, by decide⟩

/-- C6 (amended): for every iteration order of the countsByFile entries (the
`HashMap` iteration order is unspecified, so any permutation of the tally),
topFiles has at most 5 entries and is ordered by descending occurrence count,
the recorded counts being the true per-file counts; equal counts stay in the
hash map's iteration order, not in discovery order. -/
theorem C6_top_files_sorted (instances : List MacroInstance)
    (iterEntries : List (Str × Nat))
    (h : iterEntries.Perm (count_by_file instances)) :
    (top_files iterEntries).length ≤ 5
    ∧ (top_files_entries iterEntries).Pairwise (fun a b => b.2 ≤ a.2)
    ∧ ∀ e ∈ top_files_entries iterEntries,
        e.2 = (instances.map (fun i => i.path)).count e.1 := by
  refine ⟨?_, ?_, ?_⟩
  · rw [top_files, top_files_entries, List.length_map]
    exact List.length_take_le 5 _
  · exact List.Pairwise.sublist (List.take_sublist 5 _) (sortByCountDesc_pairwise _)
  · intro e hein
    have h1 : e ∈ sortByCountDesc iterEntries := List.take_subset 5 _ hein
    have h2 : e ∈ iterEntries := (sortByCountDesc_perm _).mem_iff.mp h1
    exact count_by_file_correct (h.mem_iff.mp h2)

/-- C6 (witness): the amended statement holds at the concrete two-file tally
in its insertion order. -/
theorem C6_witness :
    (top_files (count_by_file demoInstances)).length ≤ 5
    ∧ (top_files_entries (count_by_file demoInstances)).Pairwise
        (fun a b => b.2 ≤ a.2)
    ∧ ∀ e ∈ top_files_entries (count_by_file demoInstances),
        e.2 = (demoInstances.map (fun i => i.path)).count e.1 :=
  C6_top_files_sorted demoInstances (count_by_file demoInstances)
    (List.Perm.refl _)

/-- C7: for every non-empty instance sequence, the value sums of the
per-marker and per-file tallies both equal the total instance count. -/
theorem C7_aggregation_consistency (instances : List MacroInstance)
    (_h : instances ≠ []) :
    sumValues (count_by_marker instances) = total_instances instances
    ∧ sumValues (count_by_file instances) = total_instances instances := by
  refine ⟨?_, ?_⟩
  · have hs := sumValues_tally (fun i => i.macro_name) instances []
    simpa [count_by_marker, total_instances, sumValues] using hs
  · have hs := sumValues_tally (fun i => i.path) instances []
    simpa [count_by_file, total_instances, sumValues] using hs

/-- C7 (witness): consistency at the concrete two-instance match set. -/
theorem C7_witness :
    demoInstances ≠ []
    ∧ (sumValues (count_by_marker demoInstances) = total_instances demoInstances
       ∧ sumValues (count_by_file demoInstances) = total_instances demoInstances) :=
  ⟨by decide, C7_aggregation_consistency demoInstances (by decide)⟩

/-- C8: every emitted instance's context is the trimmed text of the line
after its match line when one exists, and the empty string when the match is
on the last line — the instance is emitted either way. -/
theorem C8_context_rule (path content : Str) (names : List Str)
    (i : MacroInstance) (h : i ∈ scan_file path content names) :
    i.context = (if i.line < (rustLines content).length
                 then trimChars ((rustLines content).getD i.line [])
                 else []) := by
  obtain ⟨j, hj, hm⟩ := mem_scan_file h
  have hs := scanLine_spec hm
  rw [hs.1]
  exact hs.2.2.2.2

/-- C8 (witness): the instance emitted for a marker on the (single, hence
last) line of `#[untested]` has the empty context. -/
theorem C8_witness :
    untestedInstance.context
      = (if untestedInstance.line < (rustLines "#[untested]".toList).length
         then trimChars ((rustLines "#[untested]".toList).getD untestedInstance.line [])
         else []) :=
  C8_context_rule "f".toList "#[untested]".toList MACRO_NAMES
    untestedInstance (by decide)

/-- C9: when skip_default_dirs is on, the selector's filter rejects every
path containing one of the default-excluded directory strings as a plain
substring — so paths under directories merely ending in an excluded name
(such as `my-retarget/`) are skipped too. -/
theorem C9_substring_exclusion (is_file : Bool) (path d : Str)
    (include_pattern exclude_pattern : Option (Str → Bool))
    (h1 : d ∈ DEFAULT_EXCLUDE_DIRS) (h2 : strContains path d = true) :
    accept_file is_file path true include_pattern exclude_pattern = false := by
  have hany : DEFAULT_EXCLUDE_DIRS.any (fun x => strContains path x) = true :=
    List.any_eq_true.mpr ⟨d, h1, h2⟩
  cases is_file with
  | false => rfl
  | true => simp [accept_file, hany]

/-- C9 (witness): `my-retarget/foo.rs` contains the substring `target/` and is
rejected. -/
theorem C9_witness :
    "target/".toList ∈ DEFAULT_EXCLUDE_DIRS
    ∧ strContains "my-retarget/foo.rs".toList "target/".toList = true
    ∧ accept_file true "my-retarget/foo.rs".toList true none none = false :=
  ⟨by decide, by decide,
   C9_substring_exclusion true "my-retarget/foo.rs".toList "target/".toList
     none none (by decide) (by decide)⟩

/-- C10: the matcher is position-insensitive within a line — whenever a line
contains `#[<name>` with a `]` anywhere after it (also inside a comment or
string literal), and `name` is in the vocabulary, an instance with that
marker name is emitted for the line. -/
theorem C10_position_insensitive (names : List Str) (path : Str)
    (all : List Str) (idx : Nat) (name line pre mid post : Str)
    (h1 : name ∈ names)
    (h2 : line = pre ++ ('#' :: '[' :: name) ++ mid ++ ']' :: post) :
    ∃ i ∈ scanLine names path all idx line, i.macro_name = name := by
  subst h2
  have hsome := regexCaptures_isSome name pre mid post
  cases hc : regexCaptures name (pre ++ ('#' :: '[' :: name) ++ mid ++ ']' :: post) with
  | none => rw [hc] at hsome; simp at hsome
  | some cap =>
    exact ⟨_, mem_scanLine_of_captures path all idx h1 hc, rfl⟩

/-- C10 (witness): `#[untested]` inside a line comment, not in attribute
position, still produces an `untested` instance. -/
theorem C10_witness :
    ∃ i ∈ scanLine MACRO_NAMES "f".toList ["// see #[untested] here".toList] 0
        "// see #[untested] here".toList,
      i.macro_name = "untested".toList :=
  C10_position_insensitive MACRO_NAMES "f".toList
    ["// see #[untested] here".toList] 0 "untested".toList
    "// see #[untested] here".toList "// see ".toList [] " here".toList
    (by decide) (by decide)

end CodeStatusScanner
